import Mathlib

/-!
Verification development for the legal-text segmentation engine of
`scripts/ingest/ingest_laws.py`.

The Python source is shallowly embedded below.  HTML parsing
(BeautifulSoup) and the network are external collaborators: functions
that in Python receive raw HTML are embedded from the stage where the
library has produced plain text (`el.get_text(...)` output), candidate
element texts, or hyperlink `href` lists, which become explicit inputs.
Everything downstream of that stage — the regex matchers, scanners,
chunk slicing, filtering, citation synthesis, deduplication, the
full-text URL resolver and the jurisdiction dispatcher — is translated
from the source line by line.

Python regexes are embedded as dedicated matching functions that
reproduce the leftmost-match / greedy-with-backtracking semantics of
`re` for the exact patterns appearing in the source (the analysis of
which backtracking steps are reachable for each pattern is recorded at
each matcher).
-/

set_option autoImplicit false

/-- Python `\s` / `str.strip` whitespace, restricted to the characters
that can actually occur in this pipeline's text (ASCII whitespace plus
U+00A0, which `normalize_text` has already replaced by a space). -/
def pyIsSpace (c : Char) : Bool :=
  c.val = 32 || c.val = 9 || c.val = 10 || c.val = 13 || c.val = 11 || c.val = 12 ||
    c.val = 0xA0

/-- Python `\w` (word character) for the `\b` boundary checks: ASCII
alphanumerics, underscore, and the accented French letters that occur in
the statutes this pipeline ingests. -/
def pyIsWord (c : Char) : Bool :=
  c.isAlphanum || c = '_' || ("ÉÈÊËÀÂÎÏÔÛÜÇéèêëàâîïôûüç".toList.contains c)

/-- Python `str.strip()`: drop leading and trailing whitespace. -/
def pyStrip (cs : List Char) : List Char :=
  ((cs.dropWhile pyIsSpace).reverse.dropWhile pyIsSpace).reverse

/-- `normalize_text` (ingest_laws.py line 41): replace U+00A0 by a space
and strip.  `(s or "")` is the identity on the embedded total strings. -/
def normalize_text (s : String) : String :=
  String.mk (pyStrip (s.toList.map (fun c => if c = '\xa0' then ' ' else c)))

/-- `extract_main_text` (lines 44-52) embedded at the text stage: the
BeautifulSoup chrome-removal and `get_text` call are the external input
`raw`; the function's own final step is `normalize_text`. -/
def extract_main_text (raw : String) : String :=
  normalize_text raw

-- -----------------------------
-- Provision records and dedupe
-- -----------------------------

/-- The provision record rows built by the parsers (the dict literals at
lines 122-129, 223-230 and 255-262 of ingest_laws.py). -/
structure Row where
  code_id : String
  jurisdiction : String
  jurisdiction_bucket : String
  citation : String
  title : Option String
  text : String
deriving DecidableEq

/-- The dedup key `(r["code_id"], r["jurisdiction"], r["citation"])`. -/
def rkey (r : Row) : String × String × String :=
  (r.code_id, r.jurisdiction, r.citation)

/-- `len(r.get("text") or "")`: rows always carry a total text field. -/
def dlen (r : Row) : Nat :=
  r.text.length

/-- One step of `dedupe_rows`' dict update: `best[key] = r` when the key
is absent or the new text is strictly longer.  A Python dict preserves
the insertion position of an updated key, hence the in-place update. -/
def dstep (acc : List ((String × String × String) × Row)) (r : Row) :
    List ((String × String × String) × Row) :=
  match acc with
  | [] => [(rkey r, r)]
  | (k, b) :: rest =>
    if k = rkey r then
      (if dlen b < dlen r then (k, r) :: rest else (k, b) :: rest)
    else (k, b) :: dstep rest r

/-- `dedupe_rows` (lines 54-64): fold the rows through the best-per-key
dict and return the values in key-insertion order. -/
def dedupe_rows (rows : List Row) : List Row :=
  (rows.foldl dstep []).map Prod.snd

-- -----------------------------
-- Regex matchers
-- -----------------------------

/-- Up to `fuel` repetitions of `(?:\.\d+)`, greedy, returning the digit
groups and the remainder.  Both `\d+` runs are maximal; shortening them is
never useful for the patterns below (the following character would be a
digit, i.e. a word character, failing the `\b` / `\s` continuation), so
the repetition count is the only backtracking dimension. -/
def dotGroups : Nat → List Char → List (List Char) × List Char
  | 0, cs => ([], cs)
  | _ + 1, [] => ([], [])
  | fuel + 1, c :: cs1 =>
    if c = '.' then
      (if cs1.takeWhile Char.isDigit = [] then ([], c :: cs1)
       else
         let p := dotGroups fuel (cs1.dropWhile Char.isDigit)
         (cs1.takeWhile Char.isDigit :: p.1, p.2))
    else ([], c :: cs1)

/-- `sec_num_re.match(text)` (line 200): `^\s*(\d+(?:\.\d+){0,3})\b`,
anchored at the start; returns the captured section number.  Backtracking:
if `\b` fails after the greedy parse, dropping the final `.\d+` group puts
the boundary before a '.', which always succeeds; if there is no group to
drop, every shorter `\d+` ends before a digit and fails, so there is no
match. -/
def secNumMatch (cs : List Char) : Option (List Char) :=
  let cs1 := cs.dropWhile pyIsSpace
  let d0 := cs1.takeWhile Char.isDigit
  if d0 = [] then none
  else
    let p := dotGroups 3 (cs1.dropWhile Char.isDigit)
    let boundaryOk : Bool := match p.2 with | [] => true | c :: _ => !(pyIsWord c)
    if boundaryOk then some (d0 ++ (p.1.map (fun g => '.' :: g)).flatten)
    else
      match p.1 with
      | [] => none
      | _ :: _ => some (d0 ++ (p.1.dropLast.map (fun g => '.' :: g)).flatten)

/-- The `\s*\.\s+` continuation of `ARTICLE_RE_QC_DOT` after the number:
whitespace, a literal period, then at least one whitespace character
(consumed greedily, giving the match end). -/
def qcDotTail (num rest : List Char) : Option (List Char × List Char) :=
  match rest.dropWhile pyIsSpace with
  | '.' :: r2 =>
    if r2.takeWhile pyIsSpace = [] then none
    else some (num, r2.dropWhile pyIsSpace)
  | _ => none

/-- One anchored attempt of `ARTICLE_RE_QC_DOT` (line 91):
`^\s*(\d+(?:\.\d+)?)\s*\.\s+`.  The optional `.\d+` group is tried first
(greedy); on failure of the continuation the group is dropped, which is
the only reachable backtracking (shorter digit runs leave a digit as the
next character, on which `\s*\.` can never continue). -/
def qcDotTry (cs : List Char) : Option (List Char × List Char) :=
  let cs1 := cs.dropWhile pyIsSpace
  let d0 := cs1.takeWhile Char.isDigit
  if d0 = [] then none
  else
    let cs2 := cs1.dropWhile Char.isDigit
    let withGroup : Option (List Char × List Char) :=
      match cs2 with
      | '.' :: cs3 =>
        let d1 := cs3.takeWhile Char.isDigit
        if d1 = [] then none
        else qcDotTail (d0 ++ '.' :: d1) (cs3.dropWhile Char.isDigit)
      | _ => none
    match withGroup with
    | some r => some r
    | none => qcDotTail d0 cs2

/-- Index of the last '\n' in a character list, if any. -/
def lastIdxOfNewline : List Char → Option Nat
  | [] => none
  | c :: rest =>
    match lastIdxOfNewline rest with
    | some i => some (i + 1)
    | none => if c = '\n' then some 0 else none

/-- The `\s*$` continuation (multiline `$`): greedily consume whitespace,
backtracking to the latest position that is the end of the input or sits
directly before a '\n'.  Returns the remainder at the match end. -/
def wsDollar (rest : List Char) : Option (List Char) :=
  let w := rest.takeWhile pyIsSpace
  if rest.dropWhile pyIsSpace = [] then some (rest.dropWhile pyIsSpace)
  else
    match lastIdxOfNewline w with
    | some i => some (rest.drop i)
    | none => none

/-- One anchored attempt of `ARTICLE_RE_QC_WORD` (line 92):
`(?mi)^\s*Article\s+(\d+(?:\.\d+)?)\s*$`. -/
def qcWordTry (cs : List Char) : Option (List Char × List Char) :=
  let cs1 := cs.dropWhile pyIsSpace
  if (cs1.take 7).map Char.toLower = "article".toList then
    let cs2 := cs1.drop 7
    if cs2.takeWhile pyIsSpace = [] then none
    else
      let cs3 := cs2.dropWhile pyIsSpace
      let d0 := cs3.takeWhile Char.isDigit
      if d0 = [] then none
      else
        let cs4 := cs3.dropWhile Char.isDigit
        let withGroup : Option (List Char × List Char) :=
          match cs4 with
          | '.' :: cs5 =>
            let d1 := cs5.takeWhile Char.isDigit
            if d1 = [] then none
            else (wsDollar (cs5.dropWhile Char.isDigit)).map (fun rem => (d0 ++ '.' :: d1, rem))
          | _ => none
        match withGroup with
        | some r => some r
        | none => (wsDollar cs4).map (fun rem => (d0, rem))
  else none

/-- The explicit first-letter class of `SECTION_RE_TEXT`:
`[A-Za-zÉÈÊËÀÂÎÏÔÛÜÇ]`. -/
def fedTitleStart (c : Char) : Bool :=
  c.isAlpha || "ÉÈÊËÀÂÎÏÔÛÜÇ".toList.contains c

/-- One anchored attempt of `SECTION_RE_TEXT` (line 139):
`(?m)^\s*(\d+(?:\.\d+){0,3})\s+([A-Za-zÉÈÊËÀÂÎÏÔÛÜÇ].+)$`.  After the
greedy number no backtracking can succeed (`\s+` fails on the '.' or
digit it would expose), so the number is the full greedy parse.  `.+`
runs greedily to the end of the line, which is the match end. -/
def fedLineTry (cs : List Char) : Option (List Char × List Char) :=
  let cs1 := cs.dropWhile pyIsSpace
  let d0 := cs1.takeWhile Char.isDigit
  if d0 = [] then none
  else
    let p := dotGroups 3 (cs1.dropWhile Char.isDigit)
    let num := d0 ++ (p.1.map (fun g => '.' :: g)).flatten
    if p.2.takeWhile pyIsSpace = [] then none
    else
      match p.2.dropWhile pyIsSpace with
      | [] => none
      | c :: r2 =>
        if fedTitleStart c then
          let ln := r2.takeWhile (fun ch => ch ≠ '\n')
          if ln = [] then none else some (num, r2.drop ln.length)
        else none

-- -----------------------------
-- finditer scanners
-- -----------------------------

/-- `re.finditer` for a multiline-anchored pattern: scan the text left to
right; at every line start attempt the match; on success record
`(position, captured number)` and resume at the match end, otherwise
advance one character.  `fuel` bounds the recursion; the scanners are
invoked with `length + 1`, which each step's ≥1-character progress never
exhausts. -/
def reScan (f : List Char → Option (List Char × List Char)) :
    Nat → Nat → List Char → Bool → List (Nat × List Char)
  | 0, _, _, _ => []
  | fuel + 1, pos, cs, lineStart =>
    match cs with
    | [] => []
    | c :: rest =>
      if lineStart then
        match f cs with
        | some (num, rem) =>
          let consumed := cs.length - rem.length
          if consumed = 0 then
            (pos, num) :: reScan f fuel (pos + 1) rest (c == '\n')
          else
            (pos, num) :: reScan f fuel (pos + consumed) rem
              ((cs.take consumed).getLast? == some '\n')
        | none => reScan f fuel (pos + 1) rest (c == '\n')
      else reScan f fuel (pos + 1) rest (c == '\n')

/-- `list(ARTICLE_RE_QC_DOT.finditer(text))` (line 97). -/
def finditerQCDot (text : List Char) : List (Nat × List Char) :=
  reScan qcDotTry (text.length + 1) 0 text true

/-- `list(ARTICLE_RE_QC_WORD.finditer(text))` (line 99). -/
def finditerQCWord (text : List Char) : List (Nat × List Char) :=
  reScan qcWordTry (text.length + 1) 0 text true

/-- `list(SECTION_RE_TEXT.finditer(text))` (line 238). -/
def finditerFedLine (text : List Char) : List (Nat × List Char) :=
  reScan fedLineTry (text.length + 1) 0 text true

-- -----------------------------
-- Chunk slicing
-- -----------------------------

/-- The chunk extents of the extraction loops (lines 110-112 and
244-247): match `i` spans from `matches[i].start()` to
`matches[i+1].start()`, the last match to the end of the text. -/
def chunkSpans : List Nat → Nat → List (Nat × Nat)
  | [], _ => []
  | [s], n => [(s, n)]
  | s :: s' :: rest, n => (s, s') :: chunkSpans (s' :: rest) n

/-- `text[start:end]`. -/
def sliceChunk (text : List Char) (sp : Nat × Nat) : List Char :=
  (text.drop sp.1).take (sp.2 - sp.1)

/-- Pair each match's captured number with its sliced raw chunk. -/
def buildChunks (text : List Char) (ms : List (Nat × List Char)) :
    List (List Char × List Char) :=
  (ms.zip (chunkSpans (ms.map Prod.fst) text.length)).map
    (fun p => (p.1.2, sliceChunk text p.2))

-- -----------------------------
-- QC parser (LegisQuebec), lines 94-131
-- -----------------------------

/-- `re.sub(rf"^\s*{re.escape(art_num)}\s*\.\s+", "", chunk)` (line 115):
anchored, so at most one removal, at the start of the chunk. -/
def stripDotHead (num cs : List Char) : List Char :=
  let c1 := cs.dropWhile pyIsSpace
  if num.isPrefixOf c1 then
    match (c1.drop num.length).dropWhile pyIsSpace with
    | '.' :: c3 =>
      if c3.takeWhile pyIsSpace = [] then cs else c3.dropWhile pyIsSpace
    | _ => cs
  else cs

/-- One anchored attempt of `(?im)^\s*Article\s+{re.escape(art_num)}\s*$`
with a fixed literal number (the pattern of the word-mode sub at
line 117); returns the remainder after the matched span. -/
def qcWordNumTry (num : List Char) (cs : List Char) : Option (List Char) :=
  let cs1 := cs.dropWhile pyIsSpace
  if (cs1.take 7).map Char.toLower = "article".toList then
    let cs2 := cs1.drop 7
    if cs2.takeWhile pyIsSpace = [] then none
    else
      let cs3 := cs2.dropWhile pyIsSpace
      if num.isPrefixOf cs3 then wsDollar (cs3.drop num.length)
      else none
  else none

/-- The word-mode sub (line 117): remove every line-start match of
`^\s*Article\s+{num}\s*$` from the chunk (multiline, all occurrences). -/
def subWordLines (num : List Char) : Nat → List Char → Bool → List Char
  | 0, _, _ => []
  | fuel + 1, cs, lineStart =>
    match cs with
    | [] => []
    | c :: rest =>
      if lineStart then
        match qcWordNumTry num cs with
        | some rem =>
          let consumed := cs.length - rem.length
          if consumed = 0 then c :: subWordLines num fuel rest (c == '\n')
          else subWordLines num fuel rem ((cs.take consumed).getLast? == some '\n')
        | none => c :: subWordLines num fuel rest (c == '\n')
      else c :: subWordLines num fuel rest (c == '\n')

/-- The per-chunk body of the QC loop (lines 112-120): strip, remove the
leading number / marker line, strip again. -/
def qcChunkBody (isDot : Bool) (num raw : List Char) : List Char :=
  let chunk := pyStrip raw
  if isDot then pyStrip (stripDotHead num chunk)
  else pyStrip (subWordLines num (chunk.length + 1) chunk true)

/-- The QC record-building loop (lines 107-129): one provisional record
per match whose stripped body reaches 60 characters. -/
def qcRows (text : List Char) (isDot : Bool) (ms : List (Nat × List Char))
    (cid jur bucket : String) : List Row :=
  (buildChunks text ms).filterMap (fun p =>
    let chunk := qcChunkBody isDot p.1 p.2
    if chunk = [] || chunk.length < 60 then none
    else some
      { code_id := cid, jurisdiction := jur, jurisdiction_bucket := bucket,
        citation := "art. " ++ String.mk p.1 ++ " " ++ cid,
        title := none, text := String.mk chunk })

/-- `parse_legisquebec_articles` (lines 94-131), embedded from the
normalized-text stage (`raw` is the BeautifulSoup `get_text` output that
`extract_main_text` normalizes). -/
def parse_legisquebec_articles (raw cid jur bucket : String) : List Row :=
  let text := (extract_main_text raw).toList
  let dm := finditerQCDot text
  if dm = [] then
    let wm := finditerQCWord text
    if wm = [] then []
    else dedupe_rows (qcRows text false wm cid jur bucket)
  else dedupe_rows (qcRows text true dm cid jur bucket)

-- -----------------------------
-- CA-FED parser (Justice Laws), lines 167-264
-- -----------------------------

/-- `re.sub(rf"^\s*{re.escape(sec_num)}\b\s*", "", text)` (line 219). -/
def stripSecNumHead (num cs : List Char) : List Char :=
  let c1 := cs.dropWhile pyIsSpace
  if num.isPrefixOf c1 then
    let c2 := c1.drop num.length
    let bOk : Bool := match c2 with | [] => true | c :: _ => !(pyIsWord c)
    if bOk then c2.dropWhile pyIsSpace else cs
  else cs

/-- The DOM candidate loop (lines 202-230): for each candidate element
text, in document order, filter short texts, parse the leading section
number, keep the first occurrence per `(code_id, jurisdiction, number)`
key (the key is recorded before the body-length check, as in the
source), strip the number and keep bodies of at least 60 characters.
Returns the accepted `(section number, body)` pairs. -/
def fedDomAux (cid jur : String) :
    List String → List (String × String × String) → List (String × String)
  | [], _ => []
  | cand :: rest, seen =>
    let text := (normalize_text cand).toList
    if text = [] || text.length < 40 then fedDomAux cid jur rest seen
    else
      match secNumMatch text with
      | none => fedDomAux cid jur rest seen
      | some num =>
        let key := (cid, jur, String.mk num)
        if key ∈ seen then fedDomAux cid jur rest seen
        else
          let body := pyStrip (stripSecNumHead num text)
          if body.length < 60 then fedDomAux cid jur rest (seen ++ [key])
          else (String.mk num, String.mk body) :: fedDomAux cid jur rest (seen ++ [key])

/-- The accepted DOM candidates of strategy (A). -/
def fedDomAccepted (cands : List String) (cid jur : String) :
    List (String × String) :=
  fedDomAux cid jur cands []

/-- The provisional records of DOM strategy (A) (lines 223-230). -/
def fedDomRows (cands : List String) (cid jur bucket : String) : List Row :=
  (fedDomAccepted cands cid jur).map (fun p =>
    { code_id := cid, jurisdiction := jur, jurisdiction_bucket := bucket,
      citation := "s. " ++ p.1 ++ " " ++ cid, title := none, text := p.2 })

/-- `re.sub(rf"^\s*{re.escape(sec_num)}\s+", "", chunk)` (line 250). -/
def stripNumHead (num cs : List Char) : List Char :=
  let c1 := cs.dropWhile pyIsSpace
  if num.isPrefixOf c1 then
    let c2 := c1.drop num.length
    if c2.takeWhile pyIsSpace = [] then cs else c2.dropWhile pyIsSpace
  else cs

/-- The regex-fallback record loop (lines 242-262). -/
def fedTextRows (text : List Char) (ms : List (Nat × List Char))
    (cid jur bucket : String) : List Row :=
  (buildChunks text ms).filterMap (fun p =>
    let chunk := pyStrip (stripNumHead p.1 (pyStrip p.2))
    if chunk = [] || chunk.length < 60 then none
    else some
      { code_id := cid, jurisdiction := jur, jurisdiction_bucket := bucket,
        citation := "s. " ++ String.mk p.1 ++ " " ++ cid,
        title := none, text := String.mk chunk })

/-- Strategy (B), the flat-text regex fallback on the main text
(lines 236-264), exactly as it runs when invoked on its own: empty when
there is no match, otherwise the deduplicated record list. -/
def fedTextFallback (mainRaw cid jur bucket : String) : List Row :=
  let text := (normalize_text mainRaw).toList
  let ms := finditerFedLine text
  if ms = [] then [] else dedupe_rows (fedTextRows text ms cid jur bucket)

/-- `parse_justice_laws_sections` (lines 167-264), embedded from the
DOM-abstraction stage: `cands` are the candidate elements' `get_text`
outputs in document order (the id/class scan of lines 192-197 is
BeautifulSoup territory), `mainRaw` is the main container's `get_text`
output.  Strategy (A) runs first; its output is kept only when it has at
least 20 rows, otherwise strategy (B)'s output is returned. -/
def parse_justice_laws_sections (cands : List String) (mainRaw cid jur bucket : String) :
    List Row :=
  let rows := fedDomRows cands cid jur bucket
  if 20 ≤ rows.length then dedupe_rows rows
  else fedTextFallback mainRaw cid jur bucket

-- -----------------------------
-- Full-text resolver and dispatcher, lines 141-290
-- -----------------------------

/-- `pat in s` (Python substring containment) on character lists. -/
def listContainsSub (pat : List Char) : List Char → Bool
  | [] => pat = []
  | c :: rest => pat.isPrefixOf (c :: rest) || listContainsSub pat rest

/-- Python `str.lower()`, ASCII range (URLs and hosts in this pipeline
are ASCII). -/
def pyLower (s : String) : String :=
  String.mk (s.toList.map Char.toLower)

/-- `urllib.parse.urlparse(url).netloc`, modelled for the URL shapes this
pipeline handles (a standard-library collaborator): the authority part
after the first `"://"` (or of a scheme-relative `"//..."`), up to the
next `/`, `?` or `#`; empty when the URL has no authority. -/
def afterSchemeMark : List Char → Option (List Char)
  | ':' :: '/' :: '/' :: rest => some rest
  | _ :: rest => afterSchemeMark rest
  | [] => none

def netloc (url : String) : String :=
  let cs := url.toList
  let body :=
    match cs with
    | '/' :: '/' :: rest => some rest
    | _ => afterSchemeMark cs
  match body with
  | none => ""
  | some b => String.mk (b.takeWhile (fun c => c ≠ '/' && c ≠ '?' && c ≠ '#'))

/-- The href filter of lines 149-152: `re.search` of
`(TexteComplet|textecomplet|FullText)\.html`, i.e. substring containment
of one of the three literal names. -/
def hasFullTextHref (href : String) : Bool :=
  listContainsSub "TexteComplet.html".toList href.toList ||
    listContainsSub "textecomplet.html".toList href.toList ||
    listContainsSub "FullText.html".toList href.toList

def pyStartsWith (s pre : String) : Bool :=
  pre.toList.isPrefixOf s.toList

/-- `current_url.rstrip("/")`. -/
def rstripSlashes (s : String) : String :=
  String.mk ((s.toList.reverse.dropWhile (fun c => c = '/')).reverse)

/-- `resolve_justice_laws_fulltext_url` (lines 144-165), embedded from
the hyperlink stage: `hrefs` are the `href` attributes of the page's
anchors in document order.  Collect the matching candidates, return
`None` when there are none, else normalize `candidates[0]`. -/
def resolve_justice_laws_fulltext_url (hrefs : List String) (current_url : String) :
    Option String :=
  let candidates := hrefs.foldl (fun acc a => if hasFullTextHref a then acc ++ [a] else acc) []
  match candidates with
  | [] => none
  | href :: _ =>
    if pyStartsWith href "http" then some href
    else if pyStartsWith href "/" then
      some ("https://" ++ netloc current_url ++ href)
    else some (rstripSlashes current_url ++ "/" ++ href)

/-- `"textecomplet.html" in low or "fulltext.html" in low or "page-" in low`
(lines 278-279). -/
def isFullTextUrl (url : String) : Bool :=
  let low := pyLower url
  listContainsSub "textecomplet.html".toList low.toList ||
    listContainsSub "fulltext.html".toList low.toList ||
    listContainsSub "page-".toList low.toList

/-- The dispatcher's federal pre-condition (line 281): the host contains
the Justice Laws domain and the URL is not already a full-text view. -/
def fedShouldResolve (url : String) : Bool :=
  listContainsSub "laws-lois.justice.gc.ca".toList (pyLower (netloc url)).toList &&
    !isFullTextUrl url

/-- Outcome of the federal resolve-and-refetch step (lines 277-287). -/
structure FedStep where
  html : String
  url : String
  resolverCalled : Bool
  refetched : Bool
deriving DecidableEq

/-- The resolve-and-refetch step of the CA-FED branch (lines 277-287):
when the pre-condition holds the resolver runs on the page's hyperlinks
(`hrefsOf html`), and a resolved URL triggers one re-fetch (`fetch`) that
replaces both the HTML and the effective source URL. -/
def fedResolveStep (hrefsOf : String → List String) (fetch : String → String)
    (html source_url : String) : FedStep :=
  if fedShouldResolve source_url then
    match resolve_justice_laws_fulltext_url (hrefsOf html) source_url with
    | some full_url => ⟨fetch full_url, full_url, true, true⟩
    | none => ⟨html, source_url, true, false⟩
  else ⟨html, source_url, false, false⟩

/-- `parse_by_jurisdiction` (lines 272-290).  The BeautifulSoup stages
are the explicit collaborators `mainOf` (main-container text of a page),
`candsOf` (federal DOM candidate texts) and `hrefsOf` (anchor hrefs);
`fetch` is the network collaborator used by the one possible re-fetch. -/
def parse_by_jurisdiction (mainOf : String → String) (candsOf : String → List String)
    (hrefsOf : String → List String) (fetch : String → String)
    (html source_url cid jur bucket : String) : List Row :=
  if jur = "QC" then parse_legisquebec_articles (mainOf html) cid jur bucket
  else if jur = "CA-FED" then
    let st := fedResolveStep hrefsOf fetch html source_url
    parse_justice_laws_sections (candsOf st.html) (mainOf st.html) cid jur bucket
  else []

/-- The per-document tail of `main` (lines 325-331): parse, then treat
zero records as a fatal error (`raise RuntimeError("Parsed 0 rows ...")`),
else dedupe and hand the rows to the sink. -/
def processDocument (mainOf : String → String) (candsOf : String → List String)
    (hrefsOf : String → List String) (fetch : String → String)
    (html source_url cid jur bucket : String) : Except String (List Row) :=
  let rows := parse_by_jurisdiction mainOf candsOf hrefsOf fetch html source_url cid jur bucket
  if rows.length = 0 then Except.error "Parsed 0 rows"
  else Except.ok (dedupe_rows rows)

-- -----------------------------
-- Specification-side definitions used by the theorems
-- -----------------------------

/-- The per-group winner selection described by the spec: the new record
wins only when its text is strictly longer, so ties keep the record seen
first. -/
def pick (b r : Row) : Row :=
  if dlen b < dlen r then r else b

/-- Fold a key's group through `pick`, starting from no record. -/
def groupFold : Option Row → List Row → Option Row
  | ob, [] => ob
  | none, g :: gs => groupFold (some g) gs
  | some b, g :: gs => groupFold (some (pick b g)) gs

/-- The record currently stored for key `k` in the dedup accumulator
(first entry with that key). -/
def findRow (k : String × String × String) :
    List ((String × String × String) × Row) → Option Row
  | [] => none
  | (k2, b) :: rest => if k2 = k then some b else findRow k rest

/-- Accumulator sanity: every stored entry is keyed by its record's key. -/
def KeyOk (acc : List ((String × String × String) × Row)) : Prop :=
  ∀ p ∈ acc, p.1 = rkey p.2

/-- Number of dots in a provision number (its level count minus one). -/
def countDots (s : String) : Nat :=
  s.toList.countP (fun c => c = '.')

/-- The provincial dot-profile scenario input exactly as the specification
states it. -/
def qcScenarioLiteral : String :=
  "1. Le présent code régit...\n2. Toute personne...\n"

/-- A dot-profile article body of 60 or more characters. -/
def qcBody1 : String :=
  "Le présent code régit, en harmonie avec la Charte, les personnes, les rapports entre les personnes, ainsi que les biens."

/-- A second dot-profile article body of 60 or more characters. -/
def qcBody2 : String :=
  "Toute personne est titulaire de droits civils et pleinement apte à les exercer malgré toute disposition contraire."

/-- The dot-profile scenario input with bodies long enough to survive the
60-character noise filter. -/
def qcScenarioLong : String :=
  "1. " ++ qcBody1 ++ "\n2. " ++ qcBody2 ++ "\n"

/-- A federal DOM candidate text whose leading token is a four-level
(three-dot) section number. -/
def fedFourLevelCand : String :=
  "1.2.3.4 This body must reach the sixty character minimum to be accepted fully."

set_option maxRecDepth 100000

-- -----------------------------
-- Theorems
-- -----------------------------
-- basic facts about dedupe

theorem dstep_subset {acc : List ((String × String × String) × Row)} {r : Row}
    {p : (String × String × String) × Row} (hp : p ∈ dstep acc r) :
    p ∈ acc ∨ p = (rkey r, r) := by
  induction acc with
  | nil => simp [dstep] at hp; simp [hp]
  | cons hd tl ih =>
    obtain ⟨k, b⟩ := hd
    by_cases hk : k = rkey r
    · subst hk
      by_cases hl : dlen b < dlen r
      · simp only [dstep, if_true, if_pos hl, List.mem_cons] at hp
        cases hp with
        | inl h => right; exact h
        | inr h => left; exact List.mem_cons_of_mem _ h
      · simp only [dstep, if_true, if_neg hl, List.mem_cons] at hp
        cases hp with
        | inl h => left; rw [h]; exact List.mem_cons_self _ _
        | inr h => left; exact List.mem_cons_of_mem _ h
    · simp only [dstep, if_neg hk, List.mem_cons] at hp
      cases hp with
      | inl h => left; rw [h]; exact List.mem_cons_self _ _
      | inr h =>
        cases ih h with
        | inl h' => left; exact List.mem_cons_of_mem _ h'
        | inr h' => right; exact h'

theorem foldl_dstep_subset {rows : List Row}
    {acc : List ((String × String × String) × Row)}
    {p : (String × String × String) × Row} (hp : p ∈ rows.foldl dstep acc) :
    p ∈ acc ∨ p.2 ∈ rows := by
  induction rows generalizing acc with
  | nil => simp at hp; exact Or.inl hp
  | cons hd tl ih =>
    simp only [List.foldl_cons] at hp
    cases ih hp with
    | inl h =>
      cases dstep_subset h with
      | inl h' => exact Or.inl h'
      | inr h' => right; rw [h']; exact List.mem_cons_self _ _
    | inr h => right; exact List.mem_cons_of_mem _ h

/-- Every record produced by `dedupe_rows` is one of the input records. -/
theorem dedupe_rows_subset {rows : List Row} {r : Row}
    (hr : r ∈ dedupe_rows rows) : r ∈ rows := by
  simp only [dedupe_rows, List.mem_map] at hr
  obtain ⟨p, hp, hpr⟩ := hr
  rcases foldl_dstep_subset hp with h | h
  · simp at h
  · rw [← hpr]; exact h


/-- C3: for every federal input, if the DOM strategy accepts fewer than 20
candidate records, the parser's result is exactly the flat-text regex
fallback's own output — the partial DOM records are discarded, and the
fallback's output is used however few matches it finds. -/
theorem c3_fed_below_threshold_uses_fallback
    (cands : List String) (mainRaw cid jur bucket : String)
    (h : (fedDomRows cands cid jur bucket).length < 20) :
    parse_justice_laws_sections cands mainRaw cid jur bucket =
      fedTextFallback mainRaw cid jur bucket := by
  simp only [parse_justice_laws_sections]
  exact if_neg (Nat.not_le.mpr h)

theorem c3_fed_below_threshold_uses_fallback_witness :
    (fedDomRows [] "X" "CA-FED" "fed").length < 20 ∧
    parse_justice_laws_sections [] "main" "X" "CA-FED" "fed" =
      fedTextFallback "main" "X" "CA-FED" "fed" :=
  ⟨by decide, c3_fed_below_threshold_uses_fallback [] "main" "X" "CA-FED" "fed" (by decide)⟩

/-- C9: the Text Normalizer is a total deterministic function — it is
defined for every input string (a total Lean function), equal inputs give
equal outputs, and the empty input yields the empty output, both for
`normalize_text` and for `extract_main_text`. -/
theorem c9_normalizer_total_deterministic :
    (∀ s t : String, s = t → extract_main_text s = extract_main_text t) ∧
    extract_main_text "" = "" ∧ normalize_text "" = "" :=
  ⟨fun _ _ h => congrArg extract_main_text h, by decide, by decide⟩

theorem c9_normalizer_total_deterministic_witness :
    extract_main_text "a b" = extract_main_text "a b" :=
  c9_normalizer_total_deterministic.1 "a b" "a b" rfl

/-- C10: the CA-FED dispatcher consults the full-text resolver exactly
when the source URL's host contains "laws-lois.justice.gc.ca" and the
lowercased URL contains none of "textecomplet.html", "fulltext.html",
"page-"; in every other case the step returns the originally fetched HTML
and original URL untouched, with no resolver call and no re-fetch. -/
theorem c10_fed_resolver_gating (hrefsOf : String → List String)
    (fetch : String → String) (html url : String) :
    (fedResolveStep hrefsOf fetch html url).resolverCalled = fedShouldResolve url ∧
    (fedShouldResolve url = false →
      fedResolveStep hrefsOf fetch html url = ⟨html, url, false, false⟩) := by
  constructor
  · unfold fedResolveStep
    cases hc : fedShouldResolve url with
    | true =>
      rw [if_pos rfl]
      cases resolve_justice_laws_fulltext_url (hrefsOf html) url <;> rfl
    | false => rw [if_neg (by decide)]
  · intro hc
    unfold fedResolveStep
    rw [hc, if_neg (by decide)]

theorem c10_fed_resolver_gating_witness :
    fedShouldResolve "https://example.com/x" = false ∧
    fedResolveStep (fun _ => ["TexteComplet.html"]) (fun _ => "refetched") "page"
      "https://example.com/x" = ⟨"page", "https://example.com/x", false, false⟩ :=
  ⟨by decide,
   (c10_fed_resolver_gating (fun _ => ["TexteComplet.html"]) (fun _ => "refetched") "page"
      "https://example.com/x").2 (by decide)⟩

/-- C5 counterexample: on a concrete document whose jurisdiction is
neither "QC" nor "CA-FED", the per-document pipeline of `main` does NOT
skip non-fatally: `parse_by_jurisdiction` returns the empty record set,
and the caller's zero-record check (lines 327-329) then raises the same
`RuntimeError("Parsed 0 rows ...")` it raises for a parsing failure, so
no caller gets to "log and continue". -/
theorem c5_unknown_jurisdiction_is_fatal_counterexample :
    parse_by_jurisdiction (fun _ => "") (fun _ => []) (fun _ => []) (fun _ => "")
      "<html></html>" "https://example.com/law" "code1" "OTHER" "other" = [] ∧
    processDocument (fun _ => "") (fun _ => []) (fun _ => []) (fun _ => "")
      "<html></html>" "https://example.com/law" "code1" "OTHER" "other" =
      Except.error "Parsed 0 rows" :=
  ⟨rfl, rfl⟩

/-- C5 amended: for every unknown jurisdiction the dispatcher itself
yields an empty record set without failing, but the caller `main` treats
the empty result as fatal — `processDocument` ends in the zero-records
error, exactly as for a parsing failure, rather than logging and
continuing. -/
theorem c5_unknown_jurisdiction_empty_then_fatal
    (mainOf : String → String) (candsOf : String → List String)
    (hrefsOf : String → List String) (fetch : String → String)
    (html url cid jur bucket : String) (h1 : jur ≠ "QC") (h2 : jur ≠ "CA-FED") :
    parse_by_jurisdiction mainOf candsOf hrefsOf fetch html url cid jur bucket = [] ∧
    processDocument mainOf candsOf hrefsOf fetch html url cid jur bucket =
      Except.error "Parsed 0 rows" := by
  have hp : parse_by_jurisdiction mainOf candsOf hrefsOf fetch html url cid jur bucket = [] := by
    simp [parse_by_jurisdiction, h1, h2]
  exact ⟨hp, by simp [processDocument, hp]⟩

theorem c5_unknown_jurisdiction_empty_then_fatal_witness :
    ("CA" ≠ "QC" ∧ "CA" ≠ "CA-FED") ∧
    (parse_by_jurisdiction (fun _ => "") (fun _ => []) (fun _ => []) (fun _ => "")
        "h" "u" "c" "CA" "b" = [] ∧
      processDocument (fun _ => "") (fun _ => []) (fun _ => []) (fun _ => "")
        "h" "u" "c" "CA" "b" = Except.error "Parsed 0 rows") :=
  ⟨⟨by decide, by decide⟩,
   c5_unknown_jurisdiction_empty_then_fatal (fun _ => "") (fun _ => []) (fun _ => [])
     (fun _ => "") "h" "u" "c" "CA" "b" (by decide) (by decide)⟩

/-- C4 counterexample: on the scenario's literal input text
`"1. Le présent code régit...\n2. Toute personne...\n"` the dot-profile
pipeline produces NO records at all — both stripped bodies (24 and 17
characters) fall below the 60-character noise filter of line 119, so the
claimed two records are never emitted. -/
theorem c4_literal_scenario_yields_no_records :
    parse_legisquebec_articles qcScenarioLiteral "X" "QC" "QC" = [] := by
  decide

/-- C4 amended: the scenario behaves as described once each article body
reaches the 60-character minimum: on
`"1. <body1>\n2. <body2>\n"` with bodies of 60+ characters the pipeline
produces exactly two records, with citations `"art. 1 X"` and
`"art. 2 X"` and the respective bodies as text. -/
theorem c4_long_body_scenario_two_records :
    60 ≤ qcBody1.length ∧ 60 ≤ qcBody2.length ∧
    parse_legisquebec_articles qcScenarioLong "X" "QC" "QC" =
      [⟨"X", "QC", "QC", "art. 1 X", none, qcBody1⟩,
       ⟨"X", "QC", "QC", "art. 2 X", none, qcBody2⟩] := by
  refine ⟨by decide, by decide, by decide⟩

/-- C7 counterexample: the federal DOM strategy accepts the candidate
`"1.2.3.4 <60+ character body>"` with provision number `"1.2.3.4"`,
which contains three dots (four levels) — the regexes use `{0,3}`, not
`{0,2}`, so "at most two dots" is violated. -/
theorem c7_four_level_number_accepted_counterexample :
    (fedDomAccepted [fedFourLevelCand] "X" "CA-FED").map Prod.fst = ["1.2.3.4"] ∧
    2 < countDots "1.2.3.4" := by
  refine ⟨by decide, by decide⟩

/-- `String.length` of a packed character list. -/
theorem strLenMk (l : List Char) : (String.mk l).length = l.length := rfl

theorem qcRows_text_len {text : List Char} {isDot : Bool} {ms : List (Nat × List Char)}
    {cid jur bucket : String} {r : Row}
    (hr : r ∈ qcRows text isDot ms cid jur bucket) : 60 ≤ r.text.length := by
  simp only [qcRows, List.mem_filterMap] at hr
  obtain ⟨p, hp, hcond⟩ := hr
  split at hcond
  · exact absurd hcond (by simp)
  · rename_i hb
    simp only [Option.some_inj] at hcond
    rw [← hcond]
    simp only [Bool.or_eq_true, decide_eq_true_eq, not_or] at hb
    have := hb.2
    simp only [strLenMk]
    omega

theorem fedDomAux_text_len {cid jur : String} :
    ∀ (cands : List String) (seen : List (String × String × String)) (p : String × String),
      p ∈ fedDomAux cid jur cands seen → 60 ≤ p.2.length := by
  intro cands
  induction cands with
  | nil => intro seen p hp; simp [fedDomAux] at hp
  | cons cand rest ih =>
    intro seen p hp
    rw [fedDomAux] at hp
    split at hp
    · exact ih seen p hp
    · split at hp
      · exact ih seen p hp
      · simp only [] at hp
        split at hp
        · exact ih seen p hp
        · split at hp
          · exact ih _ p hp
          · rename_i h60
            cases hp with
            | head => simp only [strLenMk]; omega
            | tail _ h => exact ih _ p h

theorem fedDomRows_text_len {cands : List String} {cid jur bucket : String} {r : Row}
    (hr : r ∈ fedDomRows cands cid jur bucket) : 60 ≤ r.text.length := by
  simp only [fedDomRows, List.mem_map] at hr
  obtain ⟨p, hp, hm⟩ := hr
  rw [← hm]
  exact fedDomAux_text_len cands [] p hp

theorem fedTextRows_text_len {text : List Char} {ms : List (Nat × List Char)}
    {cid jur bucket : String} {r : Row}
    (hr : r ∈ fedTextRows text ms cid jur bucket) : 60 ≤ r.text.length := by
  simp only [fedTextRows, List.mem_filterMap] at hr
  obtain ⟨p, hp, hcond⟩ := hr
  split at hcond
  · exact absurd hcond (by simp)
  · rename_i hb
    simp only [Option.some_inj] at hcond
    rw [← hcond]
    simp only [Bool.or_eq_true, decide_eq_true_eq, not_or] at hb
    have := hb.2
    simp only [strLenMk]
    omega

theorem parseQC_text_len {raw cid jur bucket : String} {r : Row}
    (hr : r ∈ parse_legisquebec_articles raw cid jur bucket) : 60 ≤ r.text.length := by
  simp only [parse_legisquebec_articles] at hr
  split at hr
  · split at hr
    · simp at hr
    · exact qcRows_text_len (dedupe_rows_subset hr)
  · exact qcRows_text_len (dedupe_rows_subset hr)

theorem parseFed_text_len {cands : List String} {mainRaw cid jur bucket : String} {r : Row}
    (hr : r ∈ parse_justice_laws_sections cands mainRaw cid jur bucket) :
    60 ≤ r.text.length := by
  simp only [parse_justice_laws_sections] at hr
  split at hr
  · exact fedDomRows_text_len (dedupe_rows_subset hr)
  · simp only [fedTextFallback] at hr
    split at hr
    · simp at hr
    · exact fedTextRows_text_len (dedupe_rows_subset hr)

/-- C1: every provision record output by any parsing strategy — the
provincial dot/word profiles, the federal DOM strategy, the federal
regex fallback, and hence the dispatcher — has a `text` of at least 60
characters, for every input. -/
theorem c1_all_records_min_length :
    (∀ (raw cid jur bucket : String) (r : Row),
      r ∈ parse_legisquebec_articles raw cid jur bucket → 60 ≤ r.text.length) ∧
    (∀ (cands : List String) (mainRaw cid jur bucket : String) (r : Row),
      r ∈ parse_justice_laws_sections cands mainRaw cid jur bucket → 60 ≤ r.text.length) ∧
    (∀ (mainOf : String → String) (candsOf : String → List String)
      (hrefsOf : String → List String) (fetch : String → String)
      (html url cid jur bucket : String) (r : Row),
      r ∈ parse_by_jurisdiction mainOf candsOf hrefsOf fetch html url cid jur bucket →
      60 ≤ r.text.length) := by
  refine ⟨fun _ _ _ _ _ hr => parseQC_text_len hr,
          fun _ _ _ _ _ _ hr => parseFed_text_len hr,
          fun mainOf candsOf hrefsOf fetch html url cid jur bucket r hr => ?_⟩
  simp only [parse_by_jurisdiction] at hr
  split at hr
  · exact parseQC_text_len hr
  · split at hr
    · exact parseFed_text_len hr
    · simp at hr

theorem c1_all_records_min_length_witness :
    (⟨"X", "QC", "QC", "art. 1 X", none, qcBody1⟩ : Row) ∈
        parse_legisquebec_articles qcScenarioLong "X" "QC" "QC" ∧
    60 ≤ (⟨"X", "QC", "QC", "art. 1 X", none, qcBody1⟩ : Row).text.length :=
  ⟨by decide,
   c1_all_records_min_length.1 qcScenarioLong "X" "QC" "QC" _ (by decide)⟩

theorem chunkSpans_length : ∀ (starts : List Nat) (n : Nat),
    (chunkSpans starts n).length = starts.length := by
  intro starts
  induction starts with
  | nil => intro n; rfl
  | cons s tail ih =>
    intro n
    cases tail with
    | nil => rfl
    | cons s' rest => simp only [chunkSpans, List.length_cons, ih n]

theorem chunkSpans_map_fst : ∀ (starts : List Nat) (n : Nat),
    (chunkSpans starts n).map Prod.fst = starts := by
  intro starts
  induction starts with
  | nil => intro n; rfl
  | cons s tail ih =>
    intro n
    cases tail with
    | nil => rfl
    | cons s' rest => simp only [chunkSpans, List.map_cons, ih n]

theorem chunkSpans_chain : ∀ (starts : List Nat) (n : Nat),
    List.Chain' (fun p q : Nat × Nat => p.2 = q.1) (chunkSpans starts n) := by
  intro starts
  induction starts with
  | nil => intro n; simp [chunkSpans]
  | cons s tail ih =>
    intro n
    cases tail with
    | nil => simp [chunkSpans]
    | cons s' rest =>
      rw [chunkSpans]
      refine List.chain'_cons'.mpr ⟨?_, ih n⟩
      intro q hq
      cases rest with
      | nil => simp [chunkSpans] at hq; rw [← hq]
      | cons s'' rest' => simp [chunkSpans] at hq; rw [← hq]

theorem chunkSpans_bounds : ∀ (starts : List Nat) (n : Nat),
    List.Chain' (· < ·) starts → (∀ s ∈ starts, s ≤ n) →
    ∀ p ∈ chunkSpans starts n, p.1 ≤ p.2 ∧ p.2 ≤ n := by
  intro starts
  induction starts with
  | nil => intro n _ _ p hp; simp [chunkSpans] at hp
  | cons s tail ih =>
    intro n hchain hle p hp
    cases tail with
    | nil =>
      simp only [chunkSpans, List.mem_singleton] at hp
      rw [hp]
      exact ⟨hle s (by simp), le_refl n⟩
    | cons s' rest =>
      rw [chunkSpans] at hp
      cases hp with
      | head => exact ⟨(List.chain'_cons.mp hchain).1.le, hle s' (by simp)⟩
      | tail _ h =>
        exact ih n (List.chain'_cons.mp hchain).2
          (fun x hx => hle x (List.mem_cons_of_mem _ hx)) p h

theorem chunkSpans_last : ∀ (starts : List Nat) (n : Nat) (p : Nat × Nat),
    (chunkSpans starts n).getLast? = some p → p.2 = n := by
  intro starts
  induction starts with
  | nil => intro n p hp; simp [chunkSpans] at hp
  | cons s tail ih =>
    intro n p hp
    cases tail with
    | nil =>
      simp only [chunkSpans, List.getLast?_singleton, Option.some_inj] at hp
      rw [← hp]
    | cons s' rest =>
      rw [chunkSpans] at hp
      have h2 : (chunkSpans (s' :: rest) n).getLast? = some p := by
        cases hcs : chunkSpans (s' :: rest) n with
        | nil =>
          exfalso
          have hl := chunkSpans_length (s' :: rest) n
          rw [hcs] at hl
          simp at hl
        | cons q L => rw [hcs] at hp; rwa [List.getLast?_cons_cons] at hp
      exact ih n p h2

theorem buildChunks_length (text : List Char) (ms : List (Nat × List Char)) :
    (buildChunks text ms).length = ms.length := by
  simp [buildChunks, chunkSpans_length]

/-- C6: for any text with N boundary matches the Chunk Extractor yields
exactly N chunks; the chunk extents start exactly at the match starts,
each extent ends where the next begins (pairwise non-overlapping,
gapless), the last extent ends at the document end, and all extents are
well-formed and within the document — i.e. the chunks tile the text from
the first match to the end. -/
theorem c6_chunks_tile (starts : List Nat) (n : Nat)
    (hchain : List.Chain' (· < ·) starts) (hle : ∀ s ∈ starts, s ≤ n) :
    (chunkSpans starts n).length = starts.length ∧
    (chunkSpans starts n).map Prod.fst = starts ∧
    List.Chain' (fun p q : Nat × Nat => p.2 = q.1) (chunkSpans starts n) ∧
    (∀ p ∈ chunkSpans starts n, p.1 ≤ p.2 ∧ p.2 ≤ n) ∧
    (∀ p : Nat × Nat, (chunkSpans starts n).getLast? = some p → p.2 = n) ∧
    (∀ (text : List Char) (ms : List (Nat × List Char)),
      (buildChunks text ms).length = ms.length) :=
  ⟨chunkSpans_length starts n, chunkSpans_map_fst starts n, chunkSpans_chain starts n,
   chunkSpans_bounds starts n hchain hle, chunkSpans_last starts n,
   fun text ms => buildChunks_length text ms⟩

theorem c6_chunks_tile_witness :
    (List.Chain' (· < ·) [2, 10, 25] ∧ ∀ s ∈ [2, 10, 25], s ≤ 40) ∧
    (chunkSpans [2, 10, 25] 40).length = 3 ∧
    (chunkSpans [2, 10, 25] 40).map Prod.fst = [2, 10, 25] := by
  have hch : List.Chain' (· < ·) [2, 10, 25] :=
    List.chain'_cons.mpr ⟨by decide, List.chain'_cons.mpr ⟨by decide, List.chain'_singleton 25⟩⟩
  have hle : ∀ s ∈ [2, 10, 25], s ≤ 40 := by decide
  exact ⟨⟨hch, hle⟩, ((c6_chunks_tile [2, 10, 25] 40 hch hle).1).trans (by decide),
         (c6_chunks_tile [2, 10, 25] 40 hch hle).2.1⟩

/-- A decimal digit is not a dot. -/
theorem digit_dot_false {c : Char} (h : c.isDigit = true) :
    (decide (c = '.') : Bool) = false := by
  rcases Decidable.em (c = '.') with he | he
  · subst he; exact absurd h (by decide)
  · simp [he]

theorem countP_dot_digits {l : List Char} (h : ∀ c ∈ l, c.isDigit = true) :
    l.countP (fun c => decide (c = '.')) = 0 := by
  induction l with
  | nil => rfl
  | cons c rest ih =>
    rw [List.countP_cons]
    rw [digit_dot_false (h c (List.mem_cons_self _ _))]
    simp [ih (fun x hx => h x (List.mem_cons_of_mem _ hx))]

theorem countP_dot_num {d0 : List Char} {gs : List (List Char)}
    (hd0 : ∀ c ∈ d0, c.isDigit = true) (hgs : ∀ g ∈ gs, ∀ c ∈ g, c.isDigit = true) :
    (d0 ++ (gs.map (fun g => '.' :: g)).flatten).countP (fun c => decide (c = '.')) =
      gs.length := by
  rw [List.countP_append, countP_dot_digits hd0, Nat.zero_add]
  induction gs with
  | nil => rfl
  | cons g rest ih =>
    simp only [List.map_cons, List.flatten_cons, List.countP_append, List.countP_cons,
      List.length_cons]
    rw [countP_dot_digits (hgs g (List.mem_cons_self _ _))]
    rw [ih (fun x hx => hgs x (List.mem_cons_of_mem _ hx))]
    simp
    omega

theorem dotGroups_facts : ∀ (fuel : Nat) (cs : List Char),
    (dotGroups fuel cs).1.length ≤ fuel ∧
    ∀ g ∈ (dotGroups fuel cs).1, ∀ c ∈ g, c.isDigit = true := by
  intro fuel
  induction fuel with
  | zero =>
    intro cs
    exact ⟨Nat.le_refl 0, fun g hg => absurd hg (by simp [dotGroups])⟩
  | succ f ih =>
    intro cs
    rcases cs with _ | ⟨c, cs1⟩
    · exact ⟨Nat.zero_le _, fun g hg => absurd hg (by simp [dotGroups])⟩
    · rw [dotGroups]
      by_cases hc : c = '.'
      · rw [if_pos hc]
        split
        · exact ⟨Nat.zero_le _, fun g hg => absurd hg (by simp)⟩
        · refine ⟨Nat.succ_le_succ (ih _).1, ?_⟩
          intro g hg
          cases hg with
          | head => exact fun x hx => List.mem_takeWhile_imp hx
          | tail _ h => exact (ih _).2 g h
      · rw [if_neg hc]
        exact ⟨Nat.zero_le _, fun g hg => absurd hg (by simp)⟩

theorem secNumMatch_dots {cs num : List Char} (h : secNumMatch cs = some num) :
    num.countP (fun c => decide (c = '.')) ≤ 3 := by
  unfold secNumMatch at h
  simp only [] at h
  split at h
  · exact absurd h (by simp)
  · split at h
    · simp only [Option.some_inj] at h
      rw [← h]
      rw [countP_dot_num (fun c hc => List.mem_takeWhile_imp hc) (dotGroups_facts 3 _).2]
      exact (dotGroups_facts 3 _).1
    · split at h
      · exact absurd h (by simp)
      · simp only [Option.some_inj] at h
        rw [← h]
        rw [countP_dot_num (fun c hc => List.mem_takeWhile_imp hc)
          (fun g hg => (dotGroups_facts 3 _).2 g (List.dropLast_subset _ hg))]
        have h1 := (dotGroups_facts 3 ((cs.dropWhile pyIsSpace).dropWhile Char.isDigit)).1
        have h2 := List.length_dropLast
          ((dotGroups 3 ((cs.dropWhile pyIsSpace).dropWhile Char.isDigit)).1)
        omega

theorem fedLineTry_dots {cs num rem : List Char}
    (h : fedLineTry cs = some (num, rem)) :
    num.countP (fun c => decide (c = '.')) ≤ 3 := by
  unfold fedLineTry at h
  simp only [] at h
  split at h
  · exact absurd h (by simp)
  · split at h
    · exact absurd h (by simp)
    · split at h
      · exact absurd h (by simp)
      · split at h
        · split at h
          · exact absurd h (by simp)
          · simp only [Option.some_inj, Prod.mk.injEq] at h
            rw [← h.1]
            rw [countP_dot_num (fun c hc => List.mem_takeWhile_imp hc) (dotGroups_facts 3 _).2]
            exact (dotGroups_facts 3 _).1
        · exact absurd h (by simp)

theorem reScan_prop {P : List Char → Prop}
    {f : List Char → Option (List Char × List Char)}
    (hf : ∀ cs num rem, f cs = some (num, rem) → P num) :
    ∀ (fuel pos : Nat) (cs : List Char) (ls : Bool) (m : Nat × List Char),
      m ∈ reScan f fuel pos cs ls → P m.2 := by
  intro fuel
  induction fuel with
  | zero => intro pos cs ls m hm; simp [reScan] at hm
  | succ fu ih =>
    intro pos cs ls m hm
    rcases cs with _ | ⟨c, rest⟩
    · simp [reScan] at hm
    · rw [reScan] at hm
      split at hm
      · split at hm
        · rename_i heq
          simp only [] at hm
          split at hm
          · cases hm with
            | head => exact hf _ _ _ heq
            | tail _ h => exact ih _ _ _ m h
          · cases hm with
            | head => exact hf _ _ _ heq
            | tail _ h => exact ih _ _ _ m h
        · exact ih _ _ _ m hm
      · exact ih _ _ _ m hm


theorem fedDomAux_num_dots {cid jur : String} :
    ∀ (cands : List String) (seen : List (String × String × String)) (p : String × String),
      p ∈ fedDomAux cid jur cands seen → countDots p.1 ≤ 3 := by
  intro cands
  induction cands with
  | nil => intro seen p hp; simp [fedDomAux] at hp
  | cons cand rest ih =>
    intro seen p hp
    rw [fedDomAux] at hp
    split at hp
    · exact ih seen p hp
    · split at hp
      · exact ih seen p hp
      · rename_i num heq
        simp only [] at hp
        split at hp
        · exact ih seen p hp
        · split at hp
          · exact ih _ p hp
          · cases hp with
            | head => exact secNumMatch_dots heq
            | tail _ h => exact ih _ p h

/-- C7 amended: every provision number accepted by the federal
strategies — DOM candidates (via `sec_num_re`) and the flat-text regex
fallback (via `SECTION_RE_TEXT`) — has at most THREE dots, i.e. at most
four hierarchical levels; the `{0,3}` repetition in both regexes allows
one level more than the claimed two-dot bound. -/
theorem c7_fed_numbers_at_most_four_levels :
    (∀ (cands : List String) (cid jur : String) (p : String × String),
      p ∈ fedDomAccepted cands cid jur → countDots p.1 ≤ 3) ∧
    (∀ (text : List Char) (m : Nat × List Char),
      m ∈ finditerFedLine text → countDots (String.mk m.2) ≤ 3) := by
  constructor
  · intro cands cid jur p hp
    exact fedDomAux_num_dots cands [] p hp
  · intro text m hm
    exact reScan_prop (P := fun num => num.countP (fun c => decide (c = '.')) ≤ 3)
      (fun cs num rem h => fedLineTry_dots h) _ _ _ _ m hm

theorem c7_fed_numbers_at_most_four_levels_witness :
    ("1.2.3.4", "This body must reach the sixty character minimum to be accepted fully.") ∈
        fedDomAccepted [fedFourLevelCand] "X" "CA-FED" ∧
    countDots "1.2.3.4" ≤ 3 :=
  ⟨by decide,
   c7_fed_numbers_at_most_four_levels.1 [fedFourLevelCand] "X" "CA-FED"
     ("1.2.3.4", "This body must reach the sixty character minimum to be accepted fully.")
     (by decide)⟩

/-- The candidate-collecting fold of lines 148-152 is a filter. -/
theorem foldl_filter_append (p : String → Bool) :
    ∀ (l acc : List String),
      l.foldl (fun acc a => if p a then acc ++ [a] else acc) acc = acc ++ l.filter p := by
  intro l
  induction l with
  | nil => intro acc; simp
  | cons hd tl ih =>
    intro acc
    rw [List.foldl_cons]
    by_cases h : p hd
    · rw [if_pos h, ih, List.filter_cons_of_pos h]
      simp
    · rw [if_neg h, ih, List.filter_cons_of_neg (by simp [h])]

/-- C8: the Full-Text Resolver takes the FIRST hyperlink whose target
matches the full-text naming pattern and normalizes it: an
already-absolute href (starting with "http") is returned unchanged, a
root-relative href is joined to `https://` plus the current page's host,
and any other (document-relative) href is appended to the current URL
stripped of trailing slashes; with no matching hyperlink it returns
none. -/
theorem c8_resolver_first_match (hrefs : List String) (cur : String) :
    ((∀ h ∈ hrefs, hasFullTextHref h = false) →
      resolve_justice_laws_fulltext_url hrefs cur = none) ∧
    (∀ (pre : List String) (href : String) (post : List String),
      hrefs = pre ++ href :: post →
      (∀ x ∈ pre, hasFullTextHref x = false) →
      hasFullTextHref href = true →
      resolve_justice_laws_fulltext_url hrefs cur =
        some (if pyStartsWith href "http" then href
              else if pyStartsWith href "/" then "https://" ++ netloc cur ++ href
              else rstripSlashes cur ++ "/" ++ href)) := by
  constructor
  · intro hnone
    unfold resolve_justice_laws_fulltext_url
    rw [foldl_filter_append]
    have hf : hrefs.filter hasFullTextHref = [] :=
      List.filter_eq_nil_iff.mpr (fun a ha => by simp [hnone a ha])
    rw [hf]
    rfl
  · intro pre href post heq hpre hhref
    unfold resolve_justice_laws_fulltext_url
    rw [foldl_filter_append, heq, List.filter_append, List.filter_cons_of_pos hhref]
    have hf : pre.filter hasFullTextHref = [] :=
      List.filter_eq_nil_iff.mpr (fun a ha => by simp [hpre a ha])
    rw [hf]
    simp only [List.nil_append]
    split
    · rfl
    · split
      · rfl
      · rfl

theorem c8_resolver_first_match_witness :
    ((["a.html", "/x/TexteComplet.html", "FullText.html"] : List String) =
        ["a.html"] ++ "/x/TexteComplet.html" :: ["FullText.html"] ∧
      (∀ x ∈ (["a.html"] : List String), hasFullTextHref x = false) ∧
      hasFullTextHref "/x/TexteComplet.html" = true) ∧
    resolve_justice_laws_fulltext_url ["a.html", "/x/TexteComplet.html", "FullText.html"]
        "https://h/p" =
      some (if pyStartsWith "/x/TexteComplet.html" "http" then "/x/TexteComplet.html"
            else if pyStartsWith "/x/TexteComplet.html" "/" then
              "https://" ++ netloc "https://h/p" ++ "/x/TexteComplet.html"
            else rstripSlashes "https://h/p" ++ "/" ++ "/x/TexteComplet.html") :=
  ⟨⟨rfl, by decide, by decide⟩,
   (c8_resolver_first_match ["a.html", "/x/TexteComplet.html", "FullText.html"] "https://h/p").2
     ["a.html"] "/x/TexteComplet.html" ["FullText.html"] rfl (by decide) (by decide)⟩

/-- `dstep` preserves key consistency of the accumulator. -/
theorem dstep_keyOk {acc : List ((String × String × String) × Row)} {r : Row}
    (h : KeyOk acc) : KeyOk (dstep acc r) := by
  intro p hp
  cases dstep_subset hp with
  | inl h' => exact h p h'
  | inr h' => rw [h']

theorem dstep_map_fst_mem {acc : List ((String × String × String) × Row)} {r : Row}
    (h : rkey r ∈ acc.map Prod.fst) :
    (dstep acc r).map Prod.fst = acc.map Prod.fst := by
  induction acc with
  | nil => simp at h
  | cons hd tl ih =>
    obtain ⟨k, b⟩ := hd
    by_cases hk : k = rkey r
    · subst hk
      simp only [dstep, if_true]
      split <;> simp
    · have h' : rkey r ∈ tl.map Prod.fst := by
        rcases List.mem_cons.mp h with he | hm
        · exact absurd he.symm hk
        · exact hm
      simp only [dstep, if_neg hk, List.map_cons, ih h']

theorem dstep_map_fst_not_mem {acc : List ((String × String × String) × Row)} {r : Row}
    (h : rkey r ∉ acc.map Prod.fst) :
    (dstep acc r).map Prod.fst = acc.map Prod.fst ++ [rkey r] := by
  induction acc with
  | nil => simp [dstep]
  | cons hd tl ih =>
    obtain ⟨k, b⟩ := hd
    have hk : k ≠ rkey r := fun he => h (by simp [he])
    have h' : rkey r ∉ tl.map Prod.fst := fun hm => h (List.mem_cons_of_mem _ hm)
    simp only [dstep, if_neg hk, List.map_cons, ih h', List.cons_append]

theorem dstep_nodup {acc : List ((String × String × String) × Row)} {r : Row}
    (h : (acc.map Prod.fst).Nodup) : ((dstep acc r).map Prod.fst).Nodup := by
  by_cases hm : rkey r ∈ acc.map Prod.fst
  · rw [dstep_map_fst_mem hm]; exact h
  · rw [dstep_map_fst_not_mem hm]
    exact h.append (List.nodup_singleton _) (List.disjoint_singleton.mpr hm)

theorem dstep_findRow_ne {acc : List ((String × String × String) × Row)} {r : Row}
    {k : String × String × String} (hk : k ≠ rkey r) :
    findRow k (dstep acc r) = findRow k acc := by
  have hrk : rkey r ≠ k := fun he => hk he.symm
  induction acc with
  | nil => simp [dstep, findRow, if_neg hrk]
  | cons hd tl ih =>
    obtain ⟨k', b⟩ := hd
    by_cases hk' : k' = rkey r
    · subst hk'
      simp only [dstep, if_true]
      split <;> simp only [findRow, if_neg hrk]
    · simp only [dstep, if_neg hk', findRow]
      by_cases hpk : k' = k
      · rw [if_pos hpk, if_pos hpk]
      · rw [if_neg hpk, if_neg hpk]
        exact ih

theorem dstep_findRow_eq {acc : List ((String × String × String) × Row)} {r : Row} :
    findRow (rkey r) (dstep acc r) =
      some (match findRow (rkey r) acc with | none => r | some b => pick b r) := by
  induction acc with
  | nil => simp [dstep, findRow]
  | cons hd tl ih =>
    obtain ⟨k', b⟩ := hd
    by_cases hk' : k' = rkey r
    · subst hk'
      simp only [dstep, if_true]
      split
      · rename_i hl
        simp only [findRow, eq_self_iff_true, if_true, pick]
        rw [if_pos hl]
      · rename_i hl
        simp only [findRow, eq_self_iff_true, if_true, pick]
        rw [if_neg hl]
    · simp only [dstep, if_neg hk', findRow, if_neg hk']
      exact ih

theorem foldl_dstep_keyOk : ∀ (rows : List Row)
    (acc : List ((String × String × String) × Row)),
    KeyOk acc → KeyOk (rows.foldl dstep acc) := by
  intro rows
  induction rows with
  | nil => intro acc h; simpa using h
  | cons r rest ih =>
    intro acc h
    rw [List.foldl_cons]
    exact ih _ (dstep_keyOk h)

theorem foldl_dstep_nodup : ∀ (rows : List Row)
    (acc : List ((String × String × String) × Row)),
    (acc.map Prod.fst).Nodup → ((rows.foldl dstep acc).map Prod.fst).Nodup := by
  intro rows
  induction rows with
  | nil => intro acc h; simpa using h
  | cons r rest ih =>
    intro acc h
    rw [List.foldl_cons]
    exact ih _ (dstep_nodup h)

theorem groupFold_some : ∀ (l : List Row) (b : Row),
    groupFold (some b) l = some (l.foldl pick b) := by
  intro l
  induction l with
  | nil => intro b; rfl
  | cons g gs ih => intro b; rw [groupFold, ih, List.foldl_cons]

theorem groupFold_nil (ob : Option Row) : groupFold ob [] = ob := by
  cases ob <;> rfl

theorem foldl_dstep_findRow : ∀ (rows : List Row)
    (acc : List ((String × String × String) × Row)) (k : String × String × String),
    findRow k (rows.foldl dstep acc) =
      groupFold (findRow k acc) (rows.filter (fun r => decide (rkey r = k))) := by
  intro rows
  induction rows with
  | nil => intro acc k; rw [List.foldl_nil, List.filter_nil, groupFold_nil]
  | cons r rest ih =>
    intro acc k
    rw [List.foldl_cons, ih]
    by_cases hk : rkey r = k
    · subst hk
      rw [dstep_findRow_eq, List.filter_cons_of_pos (by simp)]
      cases hfa : findRow (rkey r) acc with
      | none => rw [groupFold]
      | some b => rw [groupFold]
    · rw [dstep_findRow_ne (fun he => hk he.symm),
        List.filter_cons_of_neg (by simp [hk])]

theorem map_snd_filter_eq (k : String × String × String) :
    ∀ (acc : List ((String × String × String) × Row)),
    KeyOk acc → ((acc.map Prod.fst).Nodup) →
    (acc.map Prod.snd).filter (fun r => decide (rkey r = k)) =
      (findRow k acc).toList := by
  intro acc
  induction acc with
  | nil => intro _ _; rfl
  | cons hd tl ih =>
    intro hko hnd
    obtain ⟨k', b⟩ := hd
    have hkb : k' = rkey b := hko (k', b) (List.mem_cons_self _ _)
    by_cases hk : rkey b = k
    · rw [List.map_cons, List.filter_cons_of_pos (by simp [hk])]
      have hnotin : ∀ r ∈ tl.map Prod.snd, ¬(rkey r = k) := by
        intro r hr hrk
        rcases List.mem_map.mp hr with ⟨p, hp, hpr⟩
        have h1 : p.1 = k := by rw [hko p (List.mem_cons_of_mem _ hp), hpr, hrk]
        have h2 : k' ∈ tl.map Prod.fst := by
          rw [hkb, hk, ← h1]
          exact List.mem_map_of_mem Prod.fst hp
        exact (List.nodup_cons.mp hnd).1 h2
      rw [List.filter_eq_nil_iff.mpr (fun a ha => by simp [hnotin a ha])]
      rw [findRow, if_pos (hkb.trans hk)]
      rfl
    · rw [List.map_cons, List.filter_cons_of_neg (by simp [hk])]
      rw [findRow, if_neg (fun he => hk (hkb.symm.trans he ▸ rfl))]
      · exact ih (fun p hp => hko p (List.mem_cons_of_mem _ hp)) (List.nodup_cons.mp hnd).2

/-- C2: for every input list (hence for every permutation of it) the
Deduplicator keys records by `(code_id, jurisdiction, citation)`; each key
occurs at most once in the output, and the record kept for a key is the
fold of that key's group through `pick` — i.e. the first record of the
group attaining the maximal `text` length, so a strictly longer record
always wins and ties keep the record encountered first. -/
theorem c2_dedupe_spec (rows : List Row) (k : String × String × String) :
    ((dedupe_rows rows).map rkey).Nodup ∧
    (dedupe_rows rows).filter (fun r => decide (rkey r = k)) =
      (match rows.filter (fun r => decide (rkey r = k)) with
       | [] => []
       | g :: gs => [gs.foldl pick g]) := by
  have hko : KeyOk (rows.foldl dstep []) :=
    foldl_dstep_keyOk rows [] (fun p hp => absurd hp (List.not_mem_nil p))
  have hnd : ((rows.foldl dstep []).map Prod.fst).Nodup :=
    foldl_dstep_nodup rows [] (by simp)
  constructor
  · have hmm : (dedupe_rows rows).map rkey = (rows.foldl dstep []).map Prod.fst := by
      unfold dedupe_rows
      rw [List.map_map]
      exact List.map_congr_left (fun p hp => (hko p hp).symm)
    rw [hmm]
    exact hnd
  · unfold dedupe_rows
    rw [map_snd_filter_eq k _ hko hnd, foldl_dstep_findRow rows [] k]
    cases hf : rows.filter (fun r => decide (rkey r = k)) with
    | nil => rfl
    | cons g gs =>
      have h1 : groupFold (findRow k ([] : List ((String × String × String) × Row)))
          (g :: gs) = groupFold (some g) gs := rfl
      rw [h1, groupFold_some]
      rfl
